import Mathlib

/-!
Verification of the bitap bit-parallel approximate string matching engine.

The machine word of the source (Rust `usize`, `W = mem::size_of::<usize>() * 8`
bits) is embedded as `Nat` with explicit reduction `% 2 ^ w`; shifts that wrap
in the source are followed by `% 2 ^ w` here.  Texts and patterns are lists of
`Char` (the source iterates `str::chars()`); the ASCII byte paths work on
lists of byte values (`List Nat`, each < 256).  Lazy match iterators are
embedded as the list of all matches they would yield (`collect()`).
-/

namespace Bitap

/-- All `w` bits set: the Rust expression `!0usize`. -/
def allOnes (w : Nat) : Nat := 2 ^ w - 1

/-- Bitwise complement on a `w`-bit word: the Rust `!x` for `x < 2 ^ w`. -/
def wordNot (w x : Nat) : Nat := allOnes w ^^^ (x % 2 ^ w)

/-- A wrapping left shift by one on a `w`-bit word: the Rust `x << 1` on `usize`. -/
def shl1 (w x : Nat) : Nat := (x <<< 1) % 2 ^ w

/-- Embeds `struct Match { distance: usize, end: usize }` from `src/lib.rs`
(`end` is renamed `endPos` because `end` is reserved in Lean). -/
structure Match where
  distance : Nat
  endPos : Nat
deriving DecidableEq, Repr

/-- Helper for `charMask`: walks the pattern carrying the position index `i`,
clearing bit `i` of the accumulated mask at every position holding `c`.
Embeds the mask-table construction loop of `UnicodePattern::new` (and the
identical loops in both reference implementations): starting from `!0usize`,
each occurrence of the symbol at index `i` contributes `& !(1usize << i)`. -/
def charMaskAux (w : Nat) (c : Char) : Nat → List Char → Nat
  | _, [] => allOnes w
  | i, x :: xs =>
    let rest := charMaskAux w c (i + 1) xs
    if x = c then rest &&& wordNot w (1 <<< i) else rest

/-- The mask looked up for symbol `c` against pattern `p`: the compiled
`masks` table entry when `c` occurs in `p`, and the all-ones default
(`None => !0usize`) otherwise.  A symbol absent from the pattern yields
`allOnes w` because no bit is ever cleared for it. -/
def charMask (w : Nat) (p : List Char) (c : Char) : Nat := charMaskAux w c 0 p

/-- Embeds `UnicodeMaskIterator`: one mask per text symbol, by table lookup. -/
def unicodeMasks (w : Nat) (p t : List Char) : List Nat := t.map (charMask w p)

/-- Helper for `byteMask`: same construction as `charMaskAux` over the
pattern's bytes, embedding the loop of `AsciiPattern::new_unchecked`. -/
def byteMaskAux (w : Nat) (b : Nat) : Nat → List Nat → Nat
  | _, [] => allOnes w
  | i, x :: xs =>
    let rest := byteMaskAux w b (i + 1) xs
    if x = b then rest &&& wordNot w (1 <<< i) else rest

/-- Entry `b` of the `masks: [usize; 256]` array of `AsciiPattern`, where
`pb` is the byte sequence of the pattern. -/
def byteMask (w : Nat) (pb : List Nat) (b : Nat) : Nat := byteMaskAux w b 0 pb

/-- Embeds `AsciiMaskIterator::next`: per text char, non-ASCII chars yield
`!0usize`; ASCII chars are truncated to a byte (`c as u8`, i.e. the code
point mod 256) and looked up in the byte mask table. -/
def asciiMasks (w : Nat) (pb : List Nat) (t : List Char) : List Nat :=
  t.map fun c => if c.toNat ≤ 127 then byteMask w pb (c.toNat % 256) else allOnes w

/-- Embeds `AsciiOnlyMaskIterator::next`: iterates the raw bytes `tb` of the
text and looks each up in the byte mask table. -/
def asciiOnlyMasks (w : Nat) (pb tb : List Nat) : List Nat := tb.map (byteMask w pb)

/-- Embeds the validation of `UnicodePattern::new` (`src/lib.rs`): error when
the symbol count is 0, error when it is `≥ W - 1`, otherwise the compiled
pattern (represented by its validated length; the mask table is `charMask`). -/
def unicodePatternNew (w : Nat) (p : List Char) : Except String Nat :=
  if p.length = 0 then .error "pattern must not be empty"
  else if w - 1 ≤ p.length then .error "invalid pattern length"
  else .ok p.length

/-- Embeds the validation of `AsciiPattern::new` (`src/lib.rs`) on the byte
sequence `pb` of the pattern: empty and overlong patterns are rejected, then
any non-ASCII byte is rejected. -/
def asciiPatternNew (w : Nat) (pb : List Nat) : Except String Nat :=
  if pb.length = 0 then .error "pattern must not be empty"
  else if w - 1 ≤ pb.length then .error "invalid pattern length"
  else if pb.any fun b => decide (127 < b) then .error "pattern must be all ascii characters"
  else .ok pb.length

/-- Embeds `pattern_length_is_valid` from `bitap-reference/src/lib.rs`:
`pattern_length > 0 && pattern_length < mem::size_of::<usize>() * 8`. -/
def patternLengthIsValid (w n : Nat) : Bool := decide (0 < n) && decide (n < w)

/-- One step of `BitapFind::next`: `self.r |= mask; self.r <<= 1;`. -/
def findStep (w r m : Nat) : Nat := shl1 w (r ||| m)

/-- The initial state of `BitapFind::new`: `r: !1usize`. -/
def findInit (w : Nat) : Nat := wordNot w 1

/-- The exact-match state after consuming a sequence of masks. -/
def findState (w : Nat) (masks : List Nat) : Nat := masks.foldl (findStep w) (findInit w)

/-- Helper for `bitapFindList`: carries the enumeration index `i` and state
`r`, emitting `i + 1 - pattern_length` whenever bit `len` of the updated
state is clear, as in `BitapFind::next`. -/
def bitapFindAux (w len : Nat) : Nat → Nat → List Nat → List Nat
  | _, _, [] => []
  | i, r, m :: ms =>
    let r2 := findStep w r m
    if r2 &&& (1 <<< len) = 0 then (i + 1 - len) :: bitapFindAux w len (i + 1) r2 ms
    else bitapFindAux w len (i + 1) r2 ms

/-- All start positions produced by the `BitapFind` iterator over `masks`. -/
def bitapFindList (w len : Nat) (masks : List Nat) : List Nat :=
  bitapFindAux w len 0 (findInit w) masks

/-- Restatement of the exact-match engine in the specification's words
(section 4.3): one row initialized to all-ones except bit 0 cleared
(`2 ^ w - 2`); per mask `r = (r | m) << 1`; after the shift, bit `length`
of `r` being 0 signals a match ending at the current index `i`, reported
as start `end - (length - 1)`.  Compared against `bitapFindList`, which is
embedded from the source. -/
def specExactAux (w len : Nat) : Nat → Nat → List Nat → List Nat
  | _, _, [] => []
  | i, r, m :: ms =>
    let r2 := shl1 w (r ||| m)
    if r2.testBit len = false then (i - (len - 1)) :: specExactAux w len (i + 1) r2 ms
    else specExactAux w len (i + 1) r2 ms

/-- The spec-side exact-match engine run from the all-ones-except-bit-0 word. -/
def specExactFind (w len : Nat) (masks : List Nat) : List Nat :=
  specExactAux w len 0 (2 ^ w - 2) masks

/-- The inner row loop of `BitapLevenshtein::next` for rows `1..`: `pp` is
`prev_parent` (row `j-1` before this symbol's update), `pn` is row `j-1`
after the update, and the list holds the not-yet-updated rows `j..`.
Each produced row is `current & insert & delete & replace` exactly as in
the source. -/
def levGo (w m : Nat) : Nat → Nat → List Nat → List Nat
  | _, _, [] => []
  | pp, pn, prev :: rest =>
    let current := shl1 w (prev ||| m)
    let replace := shl1 w pp
    let delete := shl1 w pn
    let ins := pp
    let rj := current &&& ins &&& delete &&& replace
    rj :: levGo w m prev rj rest

/-- One full per-symbol update of the Levenshtein row vector: row 0 is
updated as in exact matching, then `levGo` updates the remaining rows. -/
def levStep (w m : Nat) : List Nat → List Nat
  | [] => []
  | r0 :: rest =>
    let r0' := shl1 w (r0 ||| m)
    r0' :: levGo w m r0 r0' rest

/-- The initial row vector of `BitapLevenshtein::new`:
`r: vec![!1usize; max_distance + 1]` — every row is `!1`, unshifted. -/
def levInit (w k : Nat) : List Nat := List.replicate (k + 1) (wordNot w 1)

/-- The ascending scan over the updated rows shared by all the fuzzy
engines: the first row index `d` (starting from `d0`) whose bit `len` is
clear yields the reported distance. -/
def scanRowsAux (len : Nat) : Nat → List Nat → Option Nat
  | _, [] => none
  | d, rv :: rest => if rv &&& (1 <<< len) = 0 then some d else scanRowsAux len (d + 1) rest

/-- Helper for `bitapLevList`: per symbol, update the rows and report at most
one match (the minimum qualifying distance) at the current index. -/
def bitapLevAux (w len : Nat) : Nat → List Nat → List Nat → List Match
  | _, _, [] => []
  | i, rows, m :: ms =>
    let rows2 := levStep w m rows
    match scanRowsAux len 0 rows2 with
    | some d => ⟨d, i⟩ :: bitapLevAux w len (i + 1) rows2 ms
    | none => bitapLevAux w len (i + 1) rows2 ms

/-- All matches produced by the `BitapLevenshtein` iterator (`src/lib.rs`)
with pattern length `len` and `max_distance` `k` over `masks`. -/
def bitapLevList (w len k : Nat) (masks : List Nat) : List Match :=
  bitapLevAux w len 0 (levInit w k) masks

/-- The inner row loop of `BitapDamerauLevenshtein::next`, additionally
folding the transposition row into each update and refreshing it:
`r[j] &= (trans[j-1] | (mask << 1)) << 1` and
`trans[j-1] = (prev_parent << 1) | mask`. -/
def osaGo (w m : Nat) : Nat → Nat → List Nat → List Nat → List Nat × List Nat
  | _, _, [], ts => ([], ts)
  | _, _, rest, [] => (rest, [])
  | pp, pn, prev :: rest, tv :: ts =>
    let current := shl1 w (prev ||| m)
    let replace := shl1 w pp
    let delete := shl1 w pn
    let ins := pp
    let transpose := shl1 w (tv ||| shl1 w m)
    let rj := current &&& ins &&& delete &&& replace &&& transpose
    let tv' := shl1 w pp ||| m
    let (rs, tvs) := osaGo w m prev rj rest ts
    (rj :: rs, tv' :: tvs)

/-- One full per-symbol update of the OSA engine's rows and transposition rows. -/
def osaStep (w m : Nat) : List Nat × List Nat → List Nat × List Nat
  | ([], ts) => ([], ts)
  | (r0 :: rest, ts) =>
    let r0' := shl1 w (r0 ||| m)
    let (rs, ts') := osaGo w m r0 r0' rest ts
    (r0' :: rs, ts')

/-- Helper for `bitapOsaList`: per symbol, update rows and transposition
rows, then scan ascending for at most one match. -/
def bitapOsaAux (w len : Nat) : Nat → List Nat × List Nat → List Nat → List Match
  | _, _, [] => []
  | i, st, m :: ms =>
    let st2 := osaStep w m st
    match scanRowsAux len 0 st2.1 with
    | some d => ⟨d, i⟩ :: bitapOsaAux w len (i + 1) st2 ms
    | none => bitapOsaAux w len (i + 1) st2 ms

/-- All matches produced by the `BitapDamerauLevenshtein` iterator
(`src/lib.rs`): rows `vec![!1usize; max_distance + 1]`, transposition rows
`vec![!1usize; max_distance]`. -/
def bitapOsaList (w len k : Nat) (masks : List Nat) : List Match :=
  bitapOsaAux w len 0 (levInit w k, List.replicate k (wordNot w 1)) masks

/-- The inner `for j in 1..=max_edit_distance` loop of `bitap_reference`
(`src/reference.rs`), with every vector index modelled as a checked access:
`none` is the out-of-bounds panic.  The fuel argument counts the remaining
iterations; `j` is the current row index.  Note that `transpose` reads
`trans[j - 1]` unconditionally, before `allow_transpositions` is consulted,
exactly as in the source. -/
def refLoop (w : Nat) (allowT : Bool) (m : Nat) :
    Nat → Nat → Nat → List Nat → List Nat → Option (List Nat × List Nat)
  | _, _, 0, rows, tr => some (rows, tr)
  | pp, j, n + 1, rows, tr =>
    match rows.get? j, rows.get? (j - 1), tr.get? (j - 1) with
    | some prev, some parentNew, some tv =>
      let current := shl1 w (prev ||| m)
      let replace := shl1 w pp
      let delete := shl1 w parentNew
      let ins := pp
      let transpose := shl1 w (tv ||| shl1 w m)
      let rj0 := current &&& ins &&& delete &&& replace
      let rj := if allowT then rj0 &&& transpose else rj0
      refLoop w allowT m prev (j + 1) n (rows.set j rj) (tr.set (j - 1) (shl1 w pp ||| m))
    | _, _, _ => none

/-- Helper for `srcReference`: process the text characters one at a time,
threading the rows and transposition rows and collecting matches. -/
def srcRefGo (w len k : Nat) (allowT : Bool) (p : List Char) :
    Nat → List Nat → List Nat → List Char → Option (List Match)
  | _, _, _, [] => some []
  | i, rows, tr, c :: cs => do
    let letterMask := charMask w p c
    let r0 ← rows.get? 0
    let r0' := shl1 w (r0 ||| letterMask)
    let (rows2, trans2) ← refLoop w allowT letterMask r0 1 k (rows.set 0 r0') tr
    let rest ← srcRefGo w len k allowT p (i + 1) rows2 trans2 cs
    match scanRowsAux len 0 rows2 with
    | some d => some (⟨d, i⟩ :: rest)
    | none => some rest

/-- Embeds `bitap_reference` from `src/reference.rs`.  `none` models a panic:
either a rejected pattern (empty, or longer than `W - 1`) or an
out-of-bounds vector access.  The transposition row vector is initialized
to the two-element vector `vec![!1usize, max_edit_distance]`, exactly the
expression in the source (line 56). -/
def srcReference (w : Nat) (p t : List Char) (k : Nat) (allowT : Bool) :
    Option (List Match) :=
  let m := p.length
  if m = 0 then none
  else if w - 1 < m then none
  else srcRefGo w m k allowT p 0 (List.replicate (k + 1) (wordNot w 1)) [wordNot w 1, k] t

/-- The initial row vector of `reference` in `bitap-reference/src/lib.rs`
(line 84): `(0..=max_distance).map(|i| !1usize << i)`. -/
def refCrateInit (w k : Nat) : List Nat :=
  (List.range (k + 1)).map fun i => (wordNot w 1 <<< i) % 2 ^ w

/-- Helper for `levenshtein`: fills one row of the dynamic-programming
table.  `diag` is the entry up-left of the cell being computed, `left` its
left neighbour in the new row, and the last list holds the rest of the
previous row. -/
def levRowGo (x : Char) : List Char → Nat → Nat → List Nat → List Nat
  | [], _, _, _ => []
  | _ :: _, _, _, [] => []
  | y :: ys, diag, left, up :: ups =>
    let v := min (min (left + 1) (up + 1)) (diag + if x = y then 0 else 1)
    v :: levRowGo x ys up v ups

/-- Helper for `levenshtein`: computes the table row for one more symbol of
the first string from the previous row. -/
def levRow (x : Char) (b : List Char) : List Nat → List Nat
  | [] => []
  | r0 :: rest => (r0 + 1) :: levRowGo x b r0 (r0 + 1) rest

/-- Modelled from the spec: `strsim::levenshtein`, the external textbook
dynamic-programming edit-distance routine used by the Brute-Force Engine
(its source is not part of this repository).  Per the spec's glossary it is
the minimum count of single-character insert/delete/substitute edits
transforming one string into another, computed here by the standard
row-by-row dynamic program. -/
def levenshtein (a b : List Char) : Nat :=
  (a.foldl (fun r x => levRow x b r) (List.range (b.length + 1))).getLast?.getD 0

/-- The inner `for j in start..=i` loop of `baseline`
(`bitap-reference/src/baseline.rs`): tries each substring of `tc` ending at
`i` from start index `j` on, keeping the best distance and stopping early
at 0.  The last argument is the number of remaining start indices. -/
def baselineScan (p tc : List Char) (i : Nat) : Nat → Nat → Nat → Nat
  | best, _, 0 => best
  | best, j, n + 1 =>
    let sub := (tc.take (i + 1)).drop j
    let d := levenshtein p sub
    let best2 := if d < best then d else best
    if best2 = 0 then best2 else baselineScan p tc i best2 (j + 1) n

/-- Embeds `baseline` from `bitap-reference/src/baseline.rs` with
`DistanceFn::Levenshtein`: validates the pattern, clamps the max distance
to the pattern length, and for every end position reports the minimum edit
distance over the (length-clamped) substrings ending there when it is
within the max distance. -/
def baselineLev (w : Nat) (p t : List Char) (k : Nat) : Except String (List Match) :=
  if patternLengthIsValid w p.length = false then .error "invalid pattern"
  else
    let kk := min k p.length
    let res := (List.range t.length).filterMap fun i =>
      let maxDiff := kk + p.length
      let start := if maxDiff < i then i - maxDiff else 0
      let best := baselineScan p t i (kk + 1) start (i + 1 - start)
      if best ≤ kk then some (⟨best, i⟩ : Match) else none
    .ok res

end Bitap

namespace Bitap

/-! ### Basic bit-level helper lemmas -/

/-- Testing a bit of a wrapped left shift: bit `i` of `shl1 w x` is bit
`i - 1` of `x` when `1 ≤ i < w`, and clear otherwise. -/
theorem testBit_shl1 (w x i : Nat) :
    (shl1 w x).testBit i = (decide (i < w) && decide (1 ≤ i) && x.testBit (i - 1)) := by
  simp [shl1, Bool.and_assoc]

/-- The match test `r & (1 << len) == 0` used by every engine is the same as
bit `len` of `r` being clear. -/
theorem and_one_shl_eq_zero (r len : Nat) :
    (r &&& (1 <<< len) = 0) ↔ r.testBit len = false := by
  rw [Nat.one_shiftLeft, Nat.and_two_pow]
  rcases h : r.testBit len
  · simp
  · simp [Nat.pow_eq_zero]

/-- Bit `i` of the literal 1 is set exactly at `i = 0`. -/
theorem testBit_one_nat (i : Nat) : Nat.testBit 1 i = decide (i = 0) := by
  rcases i with _ | i
  · simp
  · simp [Nat.testBit_succ]

/-- Bits of the all-ones-except-bit-0 initial state. -/
theorem testBit_findInit (w i : Nat) :
    (findInit w).testBit i = (decide (i < w) && decide (1 ≤ i)) := by
  rcases Nat.eq_zero_or_pos w with hw | hw
  · subst hw; simp [findInit, wordNot, allOnes]
  · have h1 : 1 % 2 ^ w = 1 := Nat.mod_eq_of_lt (Nat.one_lt_two_pow_iff.mpr (by omega))
    rw [findInit, wordNot, allOnes, h1, Nat.testBit_xor, Nat.testBit_two_pow_sub_one,
      testBit_one_nat]
    rcases Nat.eq_zero_or_pos i with hi | hi
    · subst hi; simp [hw]
    · have hne : ¬ (i = 0) := by omega
      simp [hne, hi]
      omega

/-! ### Closed computational claim theorems -/

/-- C1: the claim that `BitapLevenshtein` over the pattern's mask sequence
always produces exactly the Brute-Force Engine's result fails on the code.
At pattern "ab", text "b", max distance 1 the brute-force baseline reports
the match (distance 1, end 0) — "b" is one delete away from "ab" — while
the production engine, whose rows are all initialized to the unshifted
`!1usize`, reports nothing. -/
theorem claim_c1_lev_agreement_fails :
    bitapLevList 64 2 1 (unicodeMasks 64 ['a', 'b'] ['b']) = [] ∧
      baselineLev 64 ['a', 'b'] ['b'] 1 = .ok [⟨1, 0⟩] := by
  constructor
  · rfl
  · rfl

/-- C2: the claim that every Levenshtein/OSA engine initializes row `d` to
`(NOT 1) << d` fails for the production engines: `BitapLevenshtein::new`
sets every row to the unshifted `!1usize`, so with max distance 1 row 1 is
`!1` and not `(!1) << 1` (the value the reference crate's engine uses). -/
theorem claim_c2_row_init_unshifted :
    (levInit 64 1).get? 1 = some (wordNot 64 1) ∧
      (refCrateInit 64 1).get? 1 = some ((wordNot 64 1 <<< 1) % 2 ^ 64) ∧
      wordNot 64 1 ≠ (wordNot 64 1 <<< 1) % 2 ^ 64 := by
  refine ⟨rfl, rfl, ?_⟩
  decide

/-- C3: the claim that the Reference Engine runs to completion on every
input fails: `bitap_reference` in `src/reference.rs` builds its
transposition vector as the two-element `vec![!1usize, max_edit_distance]`
(a comma where a semicolon was intended) and reads `trans[j - 1]`
unconditionally, so with max edit distance 3 the very first consumed symbol
indexes `trans[2]` out of bounds and the engine panics (`none` here). -/
theorem claim_c3_reference_engine_out_of_bounds :
    srcReference 64 ['a'] ['a'] 3 false = none := by
  rfl

/-- C4 counterexample: the claim that a pattern of length exactly `W - 1`
is rejected by every pattern-compiling entry point is false: the reference
crate's `pattern_length_is_valid` accepts 63 at `W = 64` (it only rejects
lengths `≥ W`), and the brute-force baseline therefore compiles a 63-symbol
pattern successfully. -/
theorem claim_c4_counterexample :
    patternLengthIsValid 64 63 = true ∧
      (baselineLev 64 (List.replicate 63 'a') [] 0).isOk = true := by
  constructor
  · rfl
  · rfl

/-- C7 counterexample: after `BitapFind` consumes the text "ab" with
pattern "ab", the last 2 symbols equal the first 2 pattern symbols, yet bit
1 of the state word is set — refuting the claimed invariant that bit `i`
is 0 iff the last `i + 1` consumed symbols equal the first `i + 1` pattern
symbols (at `i = 1`).  The state satisfies the off-by-one variant instead:
bit `i` tracks the last `i` symbols (here bit 2, the match bit, is clear). -/
theorem claim_c7_counterexample :
    Nat.testBit (findState 64 (unicodeMasks 64 ['a', 'b'] ['a', 'b'])) 1 = true ∧
      List.drop 0 ['a', 'b'] = List.take 2 ['a', 'b'] ∧
      Nat.testBit (findState 64 (unicodeMasks 64 ['a', 'b'] ['a', 'b'])) 2 = false := by
  refine ⟨?_, rfl, ?_⟩
  · rfl
  · rfl

/-- C9: `bounded_osa("alex", "hey im aelx", 2)` yields exactly
(2, 8), (2, 9), (1, 10) — the adjacent transposition "el" → "le" costs one
edit under OSA — while plain bounded Levenshtein on the same input reports
distance 2 at end 10. -/
theorem claim_c9_osa_example :
    bitapOsaList 64 4 2
        (unicodeMasks 64 ['a', 'l', 'e', 'x']
          ['h', 'e', 'y', ' ', 'i', 'm', ' ', 'a', 'e', 'l', 'x']) =
      [⟨2, 8⟩, ⟨2, 9⟩, ⟨1, 10⟩] ∧
    bitapLevList 64 4 2
        (unicodeMasks 64 ['a', 'l', 'e', 'x']
          ['h', 'e', 'y', ' ', 'i', 'm', ' ', 'a', 'e', 'l', 'x']) =
      [⟨2, 8⟩, ⟨2, 9⟩, ⟨2, 10⟩] := by
  constructor
  · rfl
  · rfl

/-! ### C4: construction boundary -/

/-- C4 amended: the production entry points `UnicodePattern::new` and
`AsciiPattern::new` fail exactly when the symbol count is 0 or at least
`W - 1` (for the ASCII entry point, additionally when a non-ASCII byte is
present), so length `W - 2` succeeds and length `W - 1` fails there; the
reference crate's `pattern_length_is_valid`, however, accepts every length
in `1 .. W - 1` inclusive, rejecting only 0 and lengths at least `W`. -/
theorem claim_c4_amended :
    (∀ (w : Nat) (p : List Char),
        (unicodePatternNew w p).isOk = true ↔ 1 ≤ p.length ∧ p.length < w - 1) ∧
      (∀ (w : Nat) (pb : List Nat),
        (asciiPatternNew w pb).isOk = true ↔
          1 ≤ pb.length ∧ pb.length < w - 1 ∧ ∀ b ∈ pb, b ≤ 127) ∧
      (∀ w n : Nat, patternLengthIsValid w n = true ↔ 1 ≤ n ∧ n < w) := by
  refine ⟨?_, ?_, ?_⟩
  · intro w p
    rw [unicodePatternNew]
    split
    · rename_i h0
      simp only [Except.isOk, Except.toBool, Bool.false_eq_true, false_iff]
      rintro ⟨h1, h2⟩
      omega
    · split
      · rename_i h0 hlen
        simp only [Except.isOk, Except.toBool, Bool.false_eq_true, false_iff]
        rintro ⟨h1, h2⟩
        omega
      · rename_i h0 hlen
        simp only [Except.isOk, Except.toBool, true_iff]
        omega
  · intro w pb
    rw [asciiPatternNew]
    split
    · rename_i h0
      simp only [Except.isOk, Except.toBool, Bool.false_eq_true, false_iff]
      rintro ⟨h1, h2, h3⟩
      omega
    · split
      · rename_i h0 hlen
        simp only [Except.isOk, Except.toBool, Bool.false_eq_true, false_iff]
        rintro ⟨h1, h2, h3⟩
        omega
      · split
        · rename_i h0 hlen hany
          simp only [List.any_eq_true, decide_eq_true_eq] at hany
          obtain ⟨b, hb, hb127⟩ := hany
          simp only [Except.isOk, Except.toBool, Bool.false_eq_true, false_iff]
          rintro ⟨h1, h2, h3⟩
          exact absurd (h3 b hb) (by omega)
        · rename_i h0 hlen hany
          simp only [List.any_eq_true, decide_eq_true_eq] at hany
          push_neg at hany
          simp only [Except.isOk, Except.toBool, true_iff]
          exact ⟨by omega, by omega, fun b hb => by have := hany b hb; omega⟩
  · intro w n
    simp only [patternLengthIsValid, Bool.and_eq_true, decide_eq_true_eq]
    omega

/-! ### C6: the exact-match engine matches its specification -/

/-- The initial exact-match state is the all-ones word with bit 0 cleared. -/
theorem findInit_eq (w : Nat) : findInit w = 2 ^ w - 2 := by
  rcases Nat.eq_zero_or_pos w with hw | hw
  · subst hw; rfl
  · have ha : 1 ≤ 2 ^ (w - 1) := Nat.one_le_two_pow
    have hsplit : (2 : Nat) ^ w = 2 ^ (w - 1) * 2 := by
      rw [← Nat.pow_succ]; congr 1; omega
    have h2 : (2 : Nat) ^ w - 2 = (2 ^ (w - 1) - 1) <<< 1 := by
      rw [Nat.shiftLeft_eq, Nat.pow_one]; omega
    apply Nat.eq_of_testBit_eq
    intro i
    rw [testBit_findInit, h2]
    simp only [Nat.testBit_shiftLeft, Nat.testBit_two_pow_sub_one, ge_iff_le]
    by_cases h1 : 1 ≤ i <;> by_cases h2 : i < w <;>
      simp [h1, h2] <;> omega

/-- The per-step agreement between the source engine and the spec-side one:
the states evolve identically and the emitted positions agree because
`i + 1 - len = i - (len - 1)` over truncated subtraction once `1 ≤ len`. -/
theorem bitapFindAux_eq_specExactAux (w len : Nat) (hlen : 1 ≤ len) :
    ∀ (ms : List Nat) (i r : Nat), bitapFindAux w len i r ms = specExactAux w len i r ms := by
  intro ms
  induction ms with
  | nil => intro i r; rfl
  | cons m ms ih =>
    intro i r
    show (if findStep w r m &&& (1 <<< len) = 0 then
        (i + 1 - len) :: bitapFindAux w len (i + 1) (findStep w r m) ms
      else bitapFindAux w len (i + 1) (findStep w r m) ms) = _
    rw [specExactAux]
    simp only [findStep]
    by_cases h : (shl1 w (r ||| m)).testBit len = false
    · rw [if_pos ((and_one_shl_eq_zero _ len).mpr h), if_pos h, ih,
        show i + 1 - len = i - (len - 1) by omega]
    · rw [if_neg (fun hc => h ((and_one_shl_eq_zero _ len).mp hc)), if_neg h, ih]

/-- C6: the exact-match engine `BitapFind` behaves exactly as specified —
single state row starting at `NOT 1` (the all-ones word with bit 0
cleared), update `r = (r | m) << 1` per mask, a match signalled by bit
`length` of `r` being 0 after the shift, and the match start reported as
`end - (length - 1)`. -/
theorem claim_c6_exact_engine_spec (w len : Nat) (masks : List Nat) (hlen : 1 ≤ len) :
    bitapFindList w len masks = specExactFind w len masks := by
  rw [bitapFindList, specExactFind, ← findInit_eq w]
  exact bitapFindAux_eq_specExactAux w len hlen masks 0 (findInit w)

/-- Witness for C6 at a concrete input: pattern length 4 over the masks of
"abba" against "hey im abba". -/
theorem claim_c6_witness :
    1 ≤ 4 ∧
      bitapFindList 64 4 (unicodeMasks 64 ['a', 'b', 'b', 'a']
          ['h', 'e', 'y', ' ', 'i', 'm', ' ', 'a', 'b', 'b', 'a']) =
        specExactFind 64 4 (unicodeMasks 64 ['a', 'b', 'b', 'a']
          ['h', 'e', 'y', ' ', 'i', 'm', ' ', 'a', 'b', 'b', 'a']) :=
  ⟨by decide, claim_c6_exact_engine_spec 64 4
    (unicodeMasks 64 ['a', 'b', 'b', 'a']
      ['h', 'e', 'y', ' ', 'i', 'm', ' ', 'a', 'b', 'b', 'a']) (by decide)⟩

/-! ### C5: max distances beyond the pattern length are behaviourally clamped -/

/-- The inner row loop preserves the number of rows. -/
theorem levGo_length (w m : Nat) :
    ∀ (l : List Nat) (pp pn : Nat), (levGo w m pp pn l).length = l.length := by
  intro l
  induction l with
  | nil => intro pp pn; rfl
  | cons a l ih => intro pp pn; simp [levGo, ih]

/-- The full per-symbol update preserves the number of rows. -/
theorem levStep_length (w m : Nat) (rows : List Nat) :
    (levStep w m rows).length = rows.length := by
  cases rows with
  | nil => rfl
  | cons r0 rest => simp [levStep, levGo_length]

/-- The inner row loop commutes with truncation: each produced row depends
only on the rows before it. -/
theorem levGo_take (w m : Nat) :
    ∀ (l : List Nat) (n : Nat) (pp pn : Nat),
      (levGo w m pp pn l).take n = levGo w m pp pn (l.take n) := by
  intro l
  induction l with
  | nil => intro n pp pn; simp [levGo]
  | cons a l ih =>
    intro n pp pn
    cases n with
    | zero => rfl
    | succ n => simp only [levGo, List.take_succ_cons, ih]

/-- The per-symbol update commutes with truncation of the row vector. -/
theorem levStep_take (w m : Nat) (rows : List Nat) (n : Nat) :
    (levStep w m rows).take n = levStep w m (rows.take n) := by
  cases rows with
  | nil => simp [levStep]
  | cons r0 rest =>
    cases n with
    | zero => rfl
    | succ n => simp only [levStep, List.take_succ_cons, levGo_take]

/-- Diagonal invariant of the inner loop: if the already-updated parent row
`pn` has bit `j` clear, then every row the loop produces has its own
diagonal bit clear — row `i` of the output (which sits at absolute index
`j + 1 + i`) has bit `j + 1 + i` clear, via the `delete` factor. -/
theorem levGo_diag (w m : Nat) :
    ∀ (l : List Nat) (pp pn j : Nat), pn.testBit j = false →
      ∀ (i : Nat) (x : Nat), (levGo w m pp pn l).get? i = some x →
        x.testBit (j + 1 + i) = false := by
  intro l
  induction l with
  | nil => intro pp pn j _ i x h; simp [levGo] at h
  | cons a l ih =>
    intro pp pn j hpn i x hx
    have hrj : (shl1 w (a ||| m) &&& pp &&& shl1 w pn &&& shl1 w pp).testBit (j + 1) = false := by
      simp only [Nat.testBit_and, testBit_shl1, Nat.add_sub_cancel]
      simp [hpn]
    cases i with
    | zero =>
      simp only [levGo, List.get?] at hx
      cases hx
      simpa using hrj
    | succ i =>
      simp only [levGo, List.get?] at hx
      have := ih a _ (j + 1) hrj i x hx
      simpa [Nat.add_assoc, Nat.add_comm, Nat.add_left_comm] using this

/-- Diagonal invariant of a full update: after any per-symbol update, row
`j` has bit `j` clear (row 0 by the trailing shift, later rows by
induction through the `delete` factor). -/
theorem levStep_diag (w m : Nat) (rows : List Nat) :
    ∀ (j : Nat) (x : Nat), (levStep w m rows).get? j = some x → x.testBit j = false := by
  cases rows with
  | nil => intro j x h; simp [levStep] at h
  | cons r0 rest =>
    intro j x hx
    have h0 : (shl1 w (r0 ||| m)).testBit 0 = false := by
      rw [testBit_shl1]
      simp
    cases j with
    | zero =>
      simp only [levStep, List.get?] at hx
      cases hx
      exact h0
    | succ j =>
      simp only [levStep, List.get?] at hx
      have := levGo_diag w m rest r0 _ 0 h0 j x hx
      simpa [Nat.add_comm] using this

/-- The ascending scan is unaffected by truncating the row vector after a
position that is known to match. -/
theorem scanRowsAux_take (len : Nat) :
    ∀ (rows : List Nat) (n : Nat),
      (∃ j, j < n ∧ ∃ x, rows.get? j = some x ∧ x &&& (1 <<< len) = 0) →
      ∀ d, scanRowsAux len d rows = scanRowsAux len d (rows.take n) := by
  intro rows
  induction rows with
  | nil => intro n _ d; simp
  | cons rv rest ih =>
    intro n hex d
    obtain ⟨j, hj, x, hx, hmatch⟩ := hex
    obtain ⟨n', rfl⟩ : ∃ n', n = n' + 1 := ⟨n - 1, by omega⟩
    rw [List.take_succ_cons, scanRowsAux, scanRowsAux]
    by_cases hc : rv &&& (1 <<< len) = 0
    · rw [if_pos hc, if_pos hc]
    · rw [if_neg hc, if_neg hc]
      apply ih
      cases j with
      | zero =>
        simp only [List.get?] at hx
        cases hx
        exact absurd hmatch hc
      | succ j =>
        exact ⟨j, by omega, x, by simpa using hx, hmatch⟩

/-- Running the engine loop from a longer row vector produces the same
matches as from its first `len + 1` rows: after every update row `len`
has bit `len` clear, so the ascending scan never reaches the extra rows. -/
theorem bitapLevAux_take (w len : Nat) :
    ∀ (ms : List Nat) (i : Nat) (rows : List Nat), len + 1 ≤ rows.length →
      bitapLevAux w len i rows ms = bitapLevAux w len i (rows.take (len + 1)) ms := by
  intro ms
  induction ms with
  | nil => intro i rows _; rfl
  | cons m ms ih =>
    intro i rows hlen
    rw [bitapLevAux, bitapLevAux, ← levStep_take]
    obtain ⟨x, hx⟩ : ∃ x, (levStep w m rows).get? len = some x :=
      ⟨_, List.get?_eq_get (by rw [levStep_length]; omega)⟩
    have hdiag : x &&& (1 <<< len) = 0 :=
      (and_one_shl_eq_zero x len).mpr (levStep_diag w m rows len x hx)
    rw [← scanRowsAux_take len (levStep w m rows) (len + 1) ⟨len, by omega, x, hx, hdiag⟩ 0]
    have hrec := ih (i + 1) (levStep w m rows) (by rw [levStep_length]; omega)
    cases scanRowsAux len 0 (levStep w m rows) with
    | none => simpa using hrec
    | some d => simpa using hrec

/-- C5: for every valid pattern, every text, and every max distance `k`
strictly greater than the pattern's symbol count, the production
`BitapLevenshtein` engine produces exactly the same match sequence as with
max distance equal to the symbol count (the engine does not clamp
explicitly, but the extra rows can never win the ascending scan). -/
theorem claim_c5_clamping_equiv (w : Nat) (p t : List Char) (k : Nat)
    (_hp1 : 1 ≤ p.length) (_hp2 : p.length ≤ w - 2) (hk : p.length < k) :
    bitapLevList w p.length k (unicodeMasks w p t) =
      bitapLevList w p.length p.length (unicodeMasks w p t) := by
  rw [bitapLevList, bitapLevList,
    bitapLevAux_take w p.length (unicodeMasks w p t) 0 (levInit w k)
      (by simp [levInit]; omega)]
  congr 1
  simp only [levInit, List.take_replicate]
  congr 1
  omega

/-- Witness for C5 at a concrete input: pattern "alex" (length 4), text
"hey im aelx", max distance 7 versus 4. -/
theorem claim_c5_witness :
    1 ≤ 4 ∧ 4 ≤ 64 - 2 ∧ 4 < 7 ∧
      bitapLevList 64 4 7 (unicodeMasks 64 ['a', 'l', 'e', 'x']
          ['h', 'e', 'y', ' ', 'i', 'm', ' ', 'a', 'e', 'l', 'x']) =
        bitapLevList 64 4 4 (unicodeMasks 64 ['a', 'l', 'e', 'x']
          ['h', 'e', 'y', ' ', 'i', 'm', ' ', 'a', 'e', 'l', 'x']) :=
  ⟨by decide, by decide, by decide,
    claim_c5_clamping_equiv 64 ['a', 'l', 'e', 'x']
      ['h', 'e', 'y', ' ', 'i', 'm', ' ', 'a', 'e', 'l', 'x'] 7
      (by decide) (by decide) (by decide)⟩

/-! ### C7/C10: the exact-match state invariant -/

/-- Appending one element to equal-snoc lists is injective. -/
theorem snoc_inj {α : Type _} {xs ys : List α} {a b : α}
    (h : xs ++ [a] = ys ++ [b]) : xs = ys ∧ a = b := by
  have h2 := congrArg List.reverse h
  simp only [List.reverse_append, List.reverse_cons, List.reverse_nil, List.nil_append,
    List.cons_append, List.cons.injEq] at h2
  exact ⟨List.reverse_inj.mp h2.2, h2.1⟩

/-- Bit `b` of the mask accumulated from offset `s` is clear exactly when
the pattern holds `c` at absolute position `b` (which must lie inside the
processed range). -/
theorem charMaskAux_testBit (w : Nat) (c : Char) :
    ∀ (p : List Char) (s b : Nat), s + p.length ≤ w → b < w →
      ((charMaskAux w c s p).testBit b = false ↔
        s ≤ b ∧ b < s + p.length ∧ p.get? (b - s) = some c) := by
  intro p
  induction p with
  | nil =>
    intro s b _ hb
    simp only [charMaskAux, allOnes, Nat.testBit_two_pow_sub_one, List.length_nil]
    constructor
    · intro h; simp [hb] at h
    · rintro ⟨h1, h2, _⟩; omega
  | cons x xs ih =>
    intro s b hp hb
    have hp' : s + 1 + xs.length ≤ w := by
      simp only [List.length_cons] at hp; omega
    rw [charMaskAux]
    by_cases hxc : x = c
    · rw [if_pos hxc]
      have hs : s < w := by simp only [List.length_cons] at hp; omega
      have hws : (1 <<< s) % 2 ^ w = 2 ^ s := by
        rw [Nat.one_shiftLeft]
        exact Nat.mod_eq_of_lt (Nat.pow_lt_pow_right (by omega) hs)
      have hnot : (wordNot w (1 <<< s)).testBit b = !decide (s = b) := by
        rw [wordNot, hws, allOnes, Nat.testBit_xor, Nat.testBit_two_pow_sub_one,
          Nat.testBit_two_pow]
        simp [hb]
      rw [Nat.testBit_and, hnot]
      by_cases hsb : s = b
      · subst hsb
        simp only [decide_True, Bool.not_true, Bool.and_false, List.length_cons]
        constructor
        · intro _
          refine ⟨Nat.le_refl s, by omega, ?_⟩
          simp [Nat.sub_self, hxc]
        · intro _; trivial
      · simp only [hsb, decide_False, Bool.not_false, Bool.and_true, List.length_cons]
        rw [ih (s + 1) b hp' hb]
        constructor
        · rintro ⟨h1, h2, h3⟩
          refine ⟨by omega, by omega, ?_⟩
          rw [show b - s = (b - (s + 1)) + 1 by omega]
          simpa using h3
        · rintro ⟨h1, h2, h3⟩
          have hs1b : s + 1 ≤ b := by omega
          refine ⟨hs1b, by omega, ?_⟩
          rw [show b - s = (b - (s + 1)) + 1 by omega] at h3
          simpa using h3
    · rw [if_neg hxc, ih (s + 1) b hp' hb]
      simp only [List.length_cons]
      constructor
      · rintro ⟨h1, h2, h3⟩
        refine ⟨by omega, by omega, ?_⟩
        rw [show b - s = (b - (s + 1)) + 1 by omega]
        simpa using h3
      · rintro ⟨h1, h2, h3⟩
        by_cases hsb : s = b
        · subst hsb
          rw [Nat.sub_self] at h3
          simp only [List.get?] at h3
          cases h3
          exact absurd rfl hxc
        · have hs1b : s + 1 ≤ b := by omega
          refine ⟨hs1b, by omega, ?_⟩
          rw [show b - s = (b - (s + 1)) + 1 by omega] at h3
          simpa using h3

/-- Bit `b` of the mask for symbol `c` is clear exactly when the pattern
holds `c` at position `b`. -/
theorem charMask_testBit (w : Nat) (p : List Char) (c : Char) (b : Nat)
    (hp : p.length ≤ w) (hb : b < w) :
    ((charMask w p c).testBit b = false ↔ p.get? b = some c) := by
  rw [charMask, charMaskAux_testBit w c p 0 b (by omega) hb]
  constructor
  · rintro ⟨_, _, h⟩
    simpa using h
  · intro h
    obtain ⟨hlt, -⟩ := List.get?_eq_some.mp h
    exact ⟨Nat.zero_le b, by omega, by simpa using h⟩

/-- The corrected exact-match invariant: after the engine has consumed the
mask sequence of `t`, bit `i` of the state word is clear exactly when the
last `i` consumed symbols equal the first `i` pattern symbols (for bit
indices inside the word).  This is the off-by-one-corrected form of the
specification's invariant: the spec's `i + 1` phrasing holds of the word
before the trailing shift, not of the stored state. -/
theorem findState_testBit (w : Nat) (p : List Char) (_hp1 : 1 ≤ p.length)
    (hp2 : p.length + 2 ≤ w) :
    ∀ (t : List Char) (i : Nat), i < w →
      ((findState w (unicodeMasks w p t)).testBit i = false ↔
        i ≤ t.length ∧ t.drop (t.length - i) = p.take i) := by
  intro t
  induction t using List.reverseRecOn with
  | nil =>
    intro i hi
    rw [show unicodeMasks w p [] = [] from rfl, show findState w [] = findInit w from rfl,
      testBit_findInit]
    simp only [hi, decide_True, Bool.true_and, decide_eq_false_iff_not, Nat.not_le,
      List.length_nil, Nat.le_zero, List.drop_nil]
    constructor
    · intro h
      have hi0 : i = 0 := by omega
      subst hi0
      simp
    · rintro ⟨h1, _⟩
      omega
  | append_singleton t c ihz =>
    intro i hi
    have hmasks : unicodeMasks w p (t ++ [c]) = unicodeMasks w p t ++ [charMask w p c] := by
      simp [unicodeMasks]
    rw [hmasks, findState, List.foldl_append]
    change (findStep w (findState w (unicodeMasks w p t)) (charMask w p c)).testBit i
        = false ↔ _
    rw [findStep, testBit_shl1]
    rcases Nat.eq_zero_or_pos i with hi0 | hipos
    · subst hi0
      have hL : (decide (0 < w) && decide ((1 : Nat) ≤ 0) &&
          (findState w (unicodeMasks w p t) ||| charMask w p c).testBit (0 - 1)) = false := by
        simp
      rw [hL]
      constructor
      · intro _
        refine ⟨Nat.zero_le _, ?_⟩
        rw [Nat.sub_zero, List.drop_length]
        rfl
      · intro _
        rfl
    · have hdec : (decide (i < w) && decide (1 ≤ i)) = true := by
        simp only [Bool.and_eq_true, decide_eq_true_eq]
        exact ⟨hi, hipos⟩
      rw [show (decide (i < w) && decide (1 ≤ i) &&
            (findState w (unicodeMasks w p t) ||| charMask w p c).testBit (i - 1))
          = (findState w (unicodeMasks w p t) ||| charMask w p c).testBit (i - 1) by
        rw [hdec, Bool.true_and]]
      rw [Nat.testBit_or, Bool.or_eq_false_iff]
      rw [ihz (i - 1) (by omega), charMask_testBit w p c (i - 1) (by omega) (by omega)]
      have hdrop : (t ++ [c]).drop ((t ++ [c]).length - i) = t.drop (t.length - (i - 1)) ++ [c] := by
        rw [List.length_append, List.length_cons, List.length_nil,
          List.drop_append_of_le_length (by omega),
          show t.length + (0 + 1) - i = t.length - (i - 1) by omega]
      constructor
      · rintro ⟨⟨h1, h2⟩, h3⟩
        obtain ⟨hlt, -⟩ := List.get?_eq_some.mp h3
        have htake : p.take i = p.take (i - 1) ++ [c] := by
          conv_lhs => rw [show i = (i - 1) + 1 from by omega]
          rw [List.take_succ, ← List.get?_eq_getElem?, h3]
          rfl
        refine ⟨by simp; omega, ?_⟩
        rw [hdrop, h2, htake]
      · rintro ⟨hI, heq⟩
        have hIt : i ≤ t.length + 1 := by simpa using hI
        rw [hdrop] at heq
        have hlen : (t.drop (t.length - (i - 1)) ++ [c]).length = i := by
          simp only [List.length_append, List.length_drop, List.length_cons, List.length_nil]
          omega
        have hplen : i ≤ p.length := by
          have hcong := congrArg List.length heq
          rw [hlen] at hcong
          simp only [List.length_take] at hcong
          omega
        have hget : p.get? (i - 1) = some (p.get ⟨i - 1, by omega⟩) :=
          List.get?_eq_get (by omega)
        have htake : p.take i = p.take (i - 1) ++ [p.get ⟨i - 1, by omega⟩] := by
          conv_lhs => rw [show i = (i - 1) + 1 from by omega]
          rw [List.take_succ, ← List.get?_eq_getElem?, hget]
          rfl
        obtain ⟨hpre, hc⟩ := snoc_inj (heq.trans htake)
        refine ⟨⟨by omega, hpre⟩, ?_⟩
        rw [hget]
        exact congrArg some hc.symm

/-- C7 amended: for every valid pattern, every text, and every bit index
`i < W`, bit `i` of the exact-match state after consuming the text's mask
sequence is 0 iff the last `i` symbols consumed equal the first `i`
pattern symbols.  (The claim's `i + 1` indexing holds of the pre-shift
word `r | m`, not of the stored post-shift state `r`.) -/
theorem claim_c7_amended (w : Nat) (p t : List Char) (i : Nat)
    (hp1 : 1 ≤ p.length) (hp2 : p.length ≤ w - 2) (hi : i < w) :
    ((findState w (unicodeMasks w p t)).testBit i = false ↔
      i ≤ t.length ∧ t.drop (t.length - i) = p.take i) :=
  findState_testBit w p hp1 (by omega) t i hi

/-- Witness for the amended C7 at a concrete input. -/
theorem claim_c7_witness :
    1 ≤ List.length ['a', 'b'] ∧
      ((findState 64 (unicodeMasks 64 ['a', 'b'] ['a'])).testBit 1 = false ↔
        1 ≤ List.length ['a'] ∧
          List.drop (List.length ['a'] - 1) ['a'] = List.take 1 ['a', 'b']) :=
  ⟨by decide, claim_c7_amended 64 ['a', 'b'] ['a'] 1 (by decide) (by decide) (by decide)⟩

/-- C10: whenever the exact-match engine signals a match after consuming
symbol index `i` (bit `length` of the state is clear), the pattern length
is at most `i + 1`, so the reported start `i + 1 - length` involves no
underflow. -/
theorem claim_c10_no_underflow (w : Nat) (p t : List Char) (i : Nat)
    (hp1 : 1 ≤ p.length) (hp2 : p.length ≤ w - 2)
    (hsig : findState w ((unicodeMasks w p t).take (i + 1)) &&& (1 <<< p.length) = 0) :
    p.length ≤ i + 1 := by
  have htake : (unicodeMasks w p t).take (i + 1) = unicodeMasks w p (t.take (i + 1)) := by
    simp [unicodeMasks, List.map_take]
  rw [htake] at hsig
  have hbit := (and_one_shl_eq_zero _ p.length).mp hsig
  have hinv := findState_testBit w p hp1 (by omega) (t.take (i + 1)) p.length (by omega)
  have hle := (hinv.mp hbit).1
  calc p.length ≤ (t.take (i + 1)).length := hle
    _ ≤ i + 1 := by
        rw [List.length_take]
        omega

/-- Witness for C10 at a concrete input. -/
theorem claim_c10_witness :
    1 ≤ List.length ['a'] ∧
      findState 64 ((unicodeMasks 64 ['a'] ['a']).take 1) &&& (1 <<< List.length ['a']) = 0 ∧
      List.length ['a'] ≤ 0 + 1 :=
  ⟨by decide, by decide,
    claim_c10_no_underflow 64 ['a'] ['a'] 0 (by decide) (by decide) (by decide)⟩

/-! ### C8: the three mask sources agree on ASCII input -/

/-- Code points determine characters. -/
theorem char_toNat_inj {a b : Char} (h : a.toNat = b.toNat) : a = b :=
  Char.ext (UInt32.toNat.inj h)

/-- The Unicode mask table and the ASCII byte mask table are built by the
same loop, so they agree entry-wise once symbols are identified with their
code points. -/
theorem charMaskAux_eq_byteMaskAux (w : Nat) (c : Char) :
    ∀ (p : List Char) (s : Nat),
      charMaskAux w c s p = byteMaskAux w c.toNat s (p.map Char.toNat) := by
  intro p
  induction p with
  | nil => intro s; rfl
  | cons x xs ih =>
    intro s
    rw [List.map_cons, charMaskAux, byteMaskAux, ih (s + 1)]
    by_cases hx : x = c
    · rw [if_pos hx, if_pos (by rw [hx])]
    · rw [if_neg hx, if_neg (fun hc => hx (char_toNat_inj hc))]

/-- C8: for a pattern accepted by ASCII compilation and a text of ASCII
symbols only, the Unicode-codepoint mask source, the ASCII-byte mask
source, and the ASCII-only (raw byte) mask source produce identical mask
sequences.  The ASCII-only source is fed the text's UTF-8 bytes, which for
ASCII text are exactly the code points. -/
theorem claim_c8_mask_sources_agree (w : Nat) (p t : List Char)
    (hpa : ∀ x ∈ p, x.toNat ≤ 127) (hta : ∀ x ∈ t, x.toNat ≤ 127)
    (_hp1 : 1 ≤ p.length) (_hp2 : p.length < w - 1) :
    unicodeMasks w p t = asciiMasks w (p.map Char.toNat) t ∧
      asciiMasks w (p.map Char.toNat) t =
        asciiOnlyMasks w (p.map Char.toNat) (t.map Char.toNat) := by
  constructor
  · rw [unicodeMasks, asciiMasks]
    apply List.map_congr_left
    intro c hc
    have hca : c.toNat ≤ 127 := hta c hc
    rw [if_pos hca, Nat.mod_eq_of_lt (by omega), charMask, byteMask,
      charMaskAux_eq_byteMaskAux]
  · rw [asciiMasks, asciiOnlyMasks, List.map_map]
    apply List.map_congr_left
    intro c hc
    have hca : c.toNat ≤ 127 := hta c hc
    show (if c.toNat ≤ 127 then byteMask w (p.map Char.toNat) (c.toNat % 256) else allOnes w)
        = byteMask w (p.map Char.toNat) c.toNat
    rw [if_pos hca, Nat.mod_eq_of_lt (by omega)]

/-- Witness for C8 at a concrete input: pattern "ab", text "ba x". -/
theorem claim_c8_witness :
    (∀ x ∈ ['a', 'b'], x.toNat ≤ 127) ∧
      unicodeMasks 64 ['a', 'b'] ['b', 'a', ' ', 'x'] =
        asciiMasks 64 (['a', 'b'].map Char.toNat) ['b', 'a', ' ', 'x'] ∧
      asciiMasks 64 (['a', 'b'].map Char.toNat) ['b', 'a', ' ', 'x'] =
        asciiOnlyMasks 64 (['a', 'b'].map Char.toNat) (['b', 'a', ' ', 'x'].map Char.toNat) :=
  ⟨by decide,
    (claim_c8_mask_sources_agree 64 ['a', 'b'] ['b', 'a', ' ', 'x']
      (by decide) (by decide) (by decide) (by decide)).1,
    (claim_c8_mask_sources_agree 64 ['a', 'b'] ['b', 'a', ' ', 'x']
      (by decide) (by decide) (by decide) (by decide)).2⟩

end Bitap
